import Mathlib

/-!
Verification of the stochastic population-protocol simulation engine (ppsim).

The repository's sources available here are the user-facing documentation
(README, example notebooks) and an example model; the engine implementation
itself (transition-table preprocessor, Urn, Gillespie and MultiBatch engines,
simulation driver) is not among the source files.  Following the spec, those
components are modelled here as executable Lean definitions; each such
definition carries a doc comment starting with `Modelled from the spec:`.

States are represented by their dense integer indices `Fin q` (the spec's
"state index" data model); counts are integers (the spec fixes 64-bit signed
integers; we use unbounded `ℤ`, which is faithful for the quantities the
claims are about since the spec's design range is `n ≤ 2^62`); probabilities
and simulated time are exact rationals standing for the spec's floats.
-/

namespace PPSim

/-- A configuration: a vector of length `q` of (signed) integer counts,
indexed by state index. -/
abbrev Config (q : ℕ) := Fin q → ℤ

/-- Total number of agents in a configuration, `Σ c[i]`. -/
def csum {q : ℕ} (c : Config q) : ℤ := ∑ s, c s

/-- An output pair of state indices. -/
abbrev OutPair (q : ℕ) := Fin q × Fin q

/-- A probability distribution over output pairs: the delta entry of the
transition table for one ordered input pair. -/
abbrev Dist (q : ℕ) := List (OutPair q × ℚ)

/-- Modelled from the spec: the TransitionTable lookup (the preprocessor
implementation is not among the sources).  `tb i j = some d` gives the output
distribution for the ordered input pair `(i, j)`; `none` means no entry was
provided (a null interaction). -/
abbrev Table (q : ℕ) := Fin q → Fin q → Option (Dist q)

/-- A Gillespie reaction descriptor `(i, j, i', j', p)`. -/
structure Rxn (q : ℕ) where
  i : Fin q
  j : Fin q
  o1 : Fin q
  o2 : Fin q
  p : ℚ
deriving DecidableEq

/-- Apply the count delta of one reaction: remove one agent from each input
state and add one agent to each output state. -/
def applyRxn {q : ℕ} (c : Config q) (r : Rxn q) : Config q :=
  fun s =>
    c s - (if s = r.i then 1 else 0) - (if s = r.j then 1 else 0)
      + (if s = r.o1 then 1 else 0) + (if s = r.o2 then 1 else 0)

/-- A reaction is enabled when two distinct agents with its input states
exist: `c[i] ≥ 1` and `c[j] ≥ 1` (`c[i] ≥ 2` when `i = j`). -/
def Enabled {q : ℕ} (c : Config q) (r : Rxn q) : Prop :=
  1 ≤ c r.i ∧ (if r.i = r.j then 2 ≤ c r.j else 1 ≤ c r.j)

/-- Modelled from the spec: roulette-wheel selection over a list of weights
(the Urn's `sample` descent and the engines' distribution sampling; the Urn
implementation is not among the sources).  Given a target `u` in
`[0, sum of weights)`, returns the index of the window containing `u`. -/
def selectIdx : List ℚ → ℚ → ℕ
  | [], _ => 0
  | w :: ws, u => if u < w then 0 else selectIdx ws (u - w) + 1

/-- Modelled from the spec: the deterministic seedable RNG stream ("a
fixed-width counter-based generator"; the RNG primitives are not among the
sources).  `randNat seed k` is the `k`-th 64-bit draw of stream `seed`. -/
def randNat (seed k : ℕ) : ℕ :=
  ((seed + 1) * 0x9E3779B97F4A7C15 + (k + 1) * 0xBF58476D1CE4E5B9) % 2 ^ 64

/-- The `k`-th uniform rational draw in `[0, 1)` of stream `seed`. -/
def rand (seed k : ℕ) : ℚ := (randNat seed k : ℚ) / (2 ^ 64 : ℚ)

/-- The weight list of a configuration, in state-index order. -/
def weightsOf {q : ℕ} (c : Config q) : List ℚ :=
  (List.finRange q).map fun s => ((c s : ℚ))

/-- Modelled from the spec: the Urn's `sample` operation (the Urn
implementation is not among the sources): pick the agent whose cumulative
count window contains the target. -/
def sampleAgent {q : ℕ} (c : Config q) (target : ℚ) : Option (Fin q) :=
  let k := selectIdx (weightsOf c) target
  if h : k < q then some ⟨k, h⟩ else none

/-- Remove one agent of state `i` (sampling without replacement of the
second agent of a pair). -/
def decOne {q : ℕ} (c : Config q) (i : Fin q) : Config q :=
  fun s => if s = i then c s - 1 else c s

/-- Sample an output pair from a delta entry's distribution. -/
def sampleOut {q : ℕ} (d : Dist q) (u : ℚ) : Option (OutPair q) :=
  (d.get? (selectIdx (d.map fun e => e.2) u)).map fun e => e.1

/-- Modelled from the spec: the enumeration of Gillespie reaction
descriptors, the non-null outcomes of the table (the engine sources are
absent).  For every ordered input pair, every branch whose output pair
differs from the input pair becomes one descriptor. -/
def reactionsOf {q : ℕ} (tb : Table q) : List (Rxn q) :=
  (List.finRange q).flatMap fun i =>
    (List.finRange q).flatMap fun j =>
      match tb i j with
      | none => []
      | some d =>
        (d.filter fun e => decide (e.1 ≠ (i, j))).map fun e =>
          ⟨i, j, e.1.1, e.1.2, e.2⟩

/-- Modelled from the spec: the Gillespie propensity
`a_r = c[i]·(c[j]−[i=j])·p_r / (n(n−1)/2)`. -/
def propensity {q : ℕ} (nQ : ℚ) (c : Config q) (r : Rxn q) : ℚ :=
  (c r.i : ℚ) * ((c r.j : ℚ) - (if r.i = r.j then 1 else 0)) * r.p
    / (nQ * (nQ - 1) / 2)

/-- Total propensity `A = Σ_r a_r`. -/
def totalProp {q : ℕ} (nQ : ℚ) (c : Config q) (rs : List (Rxn q)) : ℚ :=
  (rs.map (propensity nQ c)).sum

/-- Modelled from the spec: one Gillespie engine step (the engine sources
are absent).  If the total propensity `A` is zero the step reports silence
(`none`, standing for `Δt = +∞`) and leaves the configuration unchanged;
otherwise it selects reaction `r` with probability `a_r / A` (roulette-wheel
selection at target `u·A` for a uniform `u ∈ [0,1)`), applies its delta, and
reports the rate `A·n` of the exponential distribution the time advance is
drawn from.  (The exponential quantile itself is irrational; the model
exposes the distribution through its rate parameter.) -/
def gStep {q : ℕ} (rs : List (Rxn q)) (nQ : ℚ) (c : Config q) (u : ℚ) :
    Config q × Option ℚ :=
  let A := totalProp nQ c rs
  if A = 0 then (c, none)
  else
    match rs.get? (selectIdx (rs.map (propensity nQ c)) (u * A)) with
    | none => (c, some (A * nQ))
    | some r => (applyRxn c r, some (A * nQ))

/-- Modelled from the spec: one interaction of a MultiBatch block (the
engine sources are absent).  Samples an ordered pair of distinct agents
without replacement from the urn, looks up the table entry, samples an
output branch, and applies the delta; any failure to produce an entry is a
null interaction.  Per spec §4.4.5 the block of `B` interactions is
distributionally equivalent to `B` sequential interactions, which is how the
block is modelled.  Returns the new configuration and RNG counter. -/
def interactCore {q : ℕ} (tb : Table q) (c : Config q) (u1 u2 u3 : ℚ) :
    Option (Rxn q) :=
  (sampleAgent c (u1 * ((csum c : ℚ)))).bind fun i =>
    (sampleAgent (decOne c i) (u2 * ((csum (decOne c i) : ℚ)))).bind fun j =>
      (tb i j).bind fun d =>
        (sampleOut d u3).map fun o => ⟨i, j, o.1, o.2, 0⟩

/-- One interaction made concrete: draw three uniforms from the stream,
resolve the interaction, and apply its delta (a failed draw or a missing
entry is a null interaction). -/
def interactOnce {q : ℕ} (tb : Table q) (seed : ℕ) (c : Config q) (ctr : ℕ) :
    Config q × ℕ :=
  ((interactCore tb c (rand seed ctr) (rand seed (ctr + 1))
      (rand seed (ctr + 2))).elim c (applyRxn c), ctr + 3)

/-- Modelled from the spec: one engine step is either a MultiBatch
interaction or a Gillespie step at the current population size, with the
uniform draws taken from the seeded stream. -/
def CoreStep {q : ℕ} (tb : Table q) (c c' : Config q) : Prop :=
  (∃ seed ctr, c' = (interactOnce tb seed c ctr).1) ∨
  (∃ seed ctr, c' = (gStep (reactionsOf tb) ((csum c : ℚ)) c (rand seed ctr)).1)

/-- Configurations reachable by any sequence of engine steps. -/
def ReachableFrom {q : ℕ} (tb : Table q) : Config q → Config q → Prop :=
  Relation.ReflTransGen (CoreStep tb)

/-- A table is well-formed when all its branch probabilities are
non-negative. -/
def WFTable {q : ℕ} (tb : Table q) : Prop :=
  ∀ i j d, tb i j = some d → ∀ e ∈ d, 0 ≤ e.2

/-- Modelled from the spec: simulation options — RNG seed, recording step,
and the Gillespie switchover threshold (the spec leaves the concrete
crossover value a tuning knob). -/
structure SimOpts where
  seed : ℕ
  recStep : ℚ
  gThresh : ℚ
deriving DecidableEq

/-- Modelled from the spec: the driver state — current configuration,
parallel-time clock, next recording threshold, RNG counter, the append-only
history of `(t, c)` snapshots, and a flag marking regular termination
(silence or a met stop condition, as opposed to fuel exhaustion). -/
structure SimState (q : ℕ) where
  config : Config q
  t : ℚ
  nextRec : ℚ
  ctr : ℕ
  history : List (ℚ × Config q)
  done : Bool

/-- The dictionary view of the configuration: exactly the states with
non-zero count, mapped to their counts. -/
def configDict {q : ℕ} (c : Config q) : List (Fin q × ℤ) :=
  (List.finRange q).filterMap fun s => if c s = 0 then none else some (s, c s)

/-- The array view of the configuration: one entry per state in state-list
order, zeros included. -/
def configArray {q : ℕ} (c : Config q) : List ℤ := List.ofFn c

/-- Silence test: the total propensity at the current population size is
zero, i.e. all enabled interactions are null. -/
def silentB {q : ℕ} (tb : Table q) (c : Config q) : Bool :=
  decide (totalProp ((csum c : ℚ)) c (reactionsOf tb) = 0)

/-- Modelled from the spec: the `run` stop condition — a parallel-time
bound, a predicate on the configuration dictionary view, or none (run until
silent). -/
inductive StopCond (q : ℕ) where
  | untilSilent : StopCond q
  | timeT : ℚ → StopCond q
  | predCond : (List (Fin q × ℤ) → Bool) → StopCond q

/-- Whether the stop condition holds at the current state.  A predicate stop
condition is evaluated on the non-zero-only dictionary view. -/
def stopMet {q : ℕ} : StopCond q → SimState q → Bool
  | .untilSilent, _ => false
  | .timeT T, st => decide (T ≤ st.t)
  | .predCond f, st => f (configDict st.config)

/-- Modelled from the spec: the adaptive batch size `B = Θ(√n)`, clamped to
`n/2` to keep sampling without replacement well-defined. -/
def batchSize (n : ℕ) : ℕ := min (Nat.sqrt n) (n / 2)

/-- Modelled from the spec: the parallel-time gap of one Gillespie step.
The exact exponential quantile at rate `A·n` is irrational; the model uses a
non-negative rational surrogate gap (the claims in scope depend only on
non-negativity and on the rate parameter, which `gStep` reports). -/
def gapSurrogate (rate u : ℚ) : ℚ := max 0 ((1 - u) / rate)

/-- Modelled from the spec: the MultiBatch block as `B` sequential
interactions (see `interactOnce`), each advancing parallel time by `1/n`.
The state threaded through is (configuration, clock, RNG counter). -/
def mbRun {q : ℕ} (tb : Table q) (seed : ℕ) (nQ : ℚ) :
    ℕ → Config q × ℚ × ℕ → Config q × ℚ × ℕ
  | 0, s => s
  | b + 1, s =>
    let r := interactOnce tb seed s.1 s.2.2
    mbRun tb seed nQ b (r.1, s.2.1 + 1 / nQ, r.2)

/-- Modelled from the spec: the switchover heuristic.  The spec ties the
switch to the null-interaction fraction exceeding a threshold; the model
switches to Gillespie when the total non-null propensity falls to the
configured threshold. -/
def useGillespieB {q : ℕ} (tb : Table q) (opts : SimOpts) (c : Config q) : Bool :=
  decide (totalProp ((csum c : ℚ)) c (reactionsOf tb) ≤ opts.gThresh)

/-- Append a snapshot if the clock crossed the next recording threshold. -/
def recordMaybe {q : ℕ} (opts : SimOpts) (st : SimState q) : SimState q :=
  if st.nextRec ≤ st.t then
    { st with history := st.history ++ [(st.t, st.config)],
              nextRec := st.t + opts.recStep }
  else st

/-- Modelled from the spec: one driver step — select an engine by the
switchover heuristic, run one Gillespie step or one MultiBatch block,
advance the clock, and record a snapshot at the requested cadence. -/
def driverStep {q : ℕ} (tb : Table q) (opts : SimOpts) (st : SimState q) :
    SimState q :=
  let nZ : ℤ := csum st.config
  let nQ : ℚ := (nZ : ℚ)
  let st' :=
    if useGillespieB tb opts st.config then
      let u := rand opts.seed st.ctr
      let u2 := rand opts.seed (st.ctr + 1)
      let res := gStep (reactionsOf tb) nQ st.config u
      match res.2 with
      | none => { st with config := res.1, ctr := st.ctr + 2 }
      | some rate =>
        { st with config := res.1, t := st.t + gapSurrogate rate u2,
                  ctr := st.ctr + 2 }
    else
      let out := mbRun tb opts.seed nQ (batchSize nZ.toNat) (st.config, st.t, st.ctr)
      { st with config := out.1, t := out.2.1, ctr := out.2.2 }
  recordMaybe opts st'

/-- Modelled from the spec: the driver loop — while neither stopped nor
silent, run one engine step.  `fuel` bounds the number of steps (the spec's
loop has no such bound; a result with `done = true` terminated regularly). -/
def runAux {q : ℕ} (tb : Table q) (opts : SimOpts) (stop : StopCond q) :
    ℕ → SimState q → SimState q
  | 0, st => st
  | fuel + 1, st =>
    if silentB tb st.config || stopMet stop st then { st with done := true }
    else runAux tb opts stop fuel (driverStep tb opts st)

/-- The initial driver state: clock at zero and the initial snapshot already
recorded. -/
def initState {q : ℕ} (c₀ : Config q) (opts : SimOpts) : SimState q :=
  { config := c₀, t := 0, nextRec := opts.recStep, ctr := 0,
    history := [(0, c₀)], done := false }

/-- Modelled from the spec: `run(stop, record_step)` of the simulation
driver. -/
def runSim {q : ℕ} (tb : Table q) (opts : SimOpts) (stop : StopCond q)
    (fuel : ℕ) (c₀ : Config q) : SimState q :=
  runAux tb opts stop fuel (initState c₀ opts)

/-- One entry of a deterministic user rule: an ordered input pair mapped to
an output pair. -/
abbrev DetEntry (q : ℕ) := (Fin q × Fin q) × (Fin q × Fin q)

/-- Look up the first entry for input pair `(i, j)` in a user rule given as
a list of entries. -/
def lookupRule {q : ℕ} (entries : List (DetEntry q)) (i j : Fin q) :
    Option (Fin q × Fin q) :=
  (entries.find? fun e => decide (e.1 = (i, j))).map fun e => e.2

/-- Modelled from the spec: TransitionTable build from a deterministic rule
(the preprocessor sources are absent).  Each provided entry becomes a
single-branch distribution with probability 1.  In symmetric mode
(`transition_order = symmetric`), a missing `(i, j)` falls back to the entry
provided for `(j, i)` with the outputs swapped. -/
def detTable {q : ℕ} (symmetric : Bool) (entries : List (DetEntry q)) :
    Table q := fun i j =>
  match lookupRule entries i j with
  | some o => some [(o, 1)]
  | none =>
    if symmetric then (lookupRule entries j i).map fun o => [((o.2, o.1), 1)]
    else none

/-- The explicit mirror entries of a rule: for every non-diagonal entry
`(i,j) ↦ (o₁,o₂)`, the entry `(j,i) ↦ (o₂,o₁)`. -/
def mirrorEntries {q : ℕ} (entries : List (DetEntry q)) : List (DetEntry q) :=
  entries.filterMap fun e =>
    if e.1.1 = e.1.2 then none
    else some ((e.1.2, e.1.1), (e.2.2, e.2.1))

/-- The rule obtained by explicitly providing both `(i,j)` and `(j,i)` for
every entry of a one-sided rule. -/
def mirrorClosure {q : ℕ} (entries : List (DetEntry q)) : List (DetEntry q) :=
  entries ++ mirrorEntries entries

/-- The tolerance `1e-12` for probability sums. -/
def tol : ℚ := 1 / 1000000000000

/-- The sum of the probabilities of a distribution. -/
def sumP {q : ℕ} (d : Dist q) : ℚ := (d.map fun e => e.2).sum

/-- Add probability `p` to output `o` in a distribution, merging with an
existing entry for `o` if present. -/
def bump {q : ℕ} (o : OutPair q) (p : ℚ) : Dist q → Dist q
  | [] => [(o, p)]
  | e :: rest => if o = e.1 then (e.1, e.2 + p) :: rest else e :: bump o p rest

/-- Merge duplicate outputs of a distribution. -/
def mergeDup {q : ℕ} (d : Dist q) : Dist q :=
  d.foldl (fun acc e => bump e.1 e.2 acc) []

/-- Modelled from the spec: normalization of a user distribution — merge
duplicate outputs, then drop zero-probability entries. -/
def normalizeDist {q : ℕ} (d : Dist q) : Dist q :=
  (mergeDup d).filter fun e => decide (e.2 ≠ 0)

/-- The abstract error kind raised by table building. -/
inductive BuildErr where
  | invalidRule : BuildErr
deriving DecidableEq

/-- Modelled from the spec and the repository's example notebooks: the value
a user rule produces for one input pair.  `pairOut` is a pair of states,
`distOut` a distribution over pairs, `noneOut` the Python `None` that the
example rules (`two_choices_clock`, `exact_majority_ties`, `cancel_split`)
produce for pairs they leave unchanged, and `badOut` any other value. -/
inductive RuleOutput (q : ℕ) where
  | pairOut : OutPair q → RuleOutput q
  | distOut : Dist q → RuleOutput q
  | noneOut : RuleOutput q
  | badOut : RuleOutput q
deriving DecidableEq

/-- `true` on a successful `Except` result. -/
def exOk {ε α : Type} : Except ε α → Bool
  | .ok _ => true
  | .error _ => false

/-- The value of a successful `Except` result. -/
def exOption {ε α : Type} : Except ε α → Option α
  | .ok a => some a
  | .error _ => none

/-- Modelled from the spec: building one delta entry from the value the rule
produced for `(i, j)`.  A pair becomes a single branch with probability 1; a
`None` becomes the null entry `(i,j) ↦ (i,j)` (the spec's carried-over
mutable-rule convenience, exercised by the repository's own examples); a
distribution is normalized and its probability sum verified to be 1 within
tolerance `1e-12`; anything else fails with `InvalidRule`. -/
def buildEntry {q : ℕ} (i j : Fin q) : RuleOutput q → Except BuildErr (Dist q)
  | .pairOut o => .ok [(o, 1)]
  | .noneOut => .ok [((i, j), 1)]
  | .badOut => .error .invalidRule
  | .distOut l =>
    let m := normalizeDist l
    if |sumP m - 1| ≤ tol then .ok m else .error .invalidRule

/-- Modelled from the spec: building the TransitionTable from a rule given
as a function over all ordered input pairs, failing with `InvalidRule` when
any entry fails. -/
def buildFromFun {q : ℕ} (f : Fin q → Fin q → RuleOutput q) :
    Except BuildErr (Table q) :=
  if (List.finRange q).all (fun i =>
      (List.finRange q).all fun j => exOk (buildEntry i j (f i j))) then
    .ok fun i j => exOption (buildEntry i j (f i j))
  else .error .invalidRule

/-- Building the TransitionTable from a rule given as distributions. -/
def buildFromDists {q : ℕ} (g : Fin q → Fin q → Dist q) :
    Except BuildErr (Table q) :=
  buildFromFun fun i j => .distOut (g i j)

/-- The repository's `two_choices_clock` example with `m = 2` on states
`{0, 1, 2}`: `(a, b) ↦ (min(a,b)+1, max(a,b))` when `min(a,b) < m`, and
Python `None` (no return statement taken) otherwise. -/
def twoChoicesClock : Fin 3 → Fin 3 → RuleOutput 3 := fun a b =>
  if h : ((min a b : Fin 3) : ℕ) + 1 < 3 then
    .pairOut (⟨((min a b : Fin 3) : ℕ) + 1, h⟩, max a b)
  else .noneOut

/-- A rule producing a genuinely invalid (non-pair, non-`None`) value. -/
def fBad : Fin 1 → Fin 1 → RuleOutput 1 := fun _ _ => .badOut

/-- The trivial one-state protocol: the only entry is the null transition. -/
def tbX : Table 1 := fun _ _ => some [((0, 0), 1)]

/-- Initial configuration `X: 1000` for the trivial protocol. -/
def cX : Config 1 := fun _ => 1000

/-- Concrete options used by witnesses. -/
def optsX : SimOpts := ⟨0, 1, -1⟩

/-- The one-way approximate-majority rule on states `A = 0`, `B = 1`,
`U = 2`: entries `(A,B) ↦ (U,U)`, `(A,U) ↦ (A,A)`, `(B,U) ↦ (B,B)`. -/
def entriesAM : List (DetEntry 3) := [((0, 1), (2, 2)), ((0, 2), (0, 0)), ((1, 2), (1, 1))]

/-- The approximate-majority transition table (asymmetric build). -/
def tbAM : Table 3 := detTable false entriesAM

/-- Initial configuration `A: 60, B: 40, U: 0`. -/
def cAM : Config 3 := ![60, 40, 0]

/-- A concrete one-state rule given as a distribution. -/
def g0 : Fin 1 → Fin 1 → Dist 1 := fun _ _ => [(((0 : Fin 1), (0 : Fin 1)), (1 : ℚ))]

/-- A concrete stop predicate on the dictionary view. -/
def f0 : List (Fin 3 × ℤ) → Bool := fun _ => true

end PPSim

namespace PPSim

theorem csum_applyRxn {q : ℕ} (c : Config q) (r : Rxn q) :
    csum (applyRxn c r) = csum c := by
  unfold csum applyRxn
  rw [Finset.sum_add_distrib, Finset.sum_add_distrib, Finset.sum_sub_distrib,
    Finset.sum_sub_distrib]
  simp [Finset.sum_ite_eq']

theorem applyRxn_nonneg {q : ℕ} {c : Config q} {r : Rxn q}
    (hc : ∀ s, 0 ≤ c s) (he : Enabled c r) : ∀ s, 0 ≤ applyRxn c r s := by
  intro s
  obtain ⟨h1, h2⟩ := he
  unfold applyRxn
  have ho1 : (0 : ℤ) ≤ (if s = r.o1 then 1 else 0) := by split <;> norm_num
  have ho2 : (0 : ℤ) ≤ (if s = r.o2 then 1 else 0) := by split <;> norm_num
  have hkey : (if s = r.i then (1 : ℤ) else 0) + (if s = r.j then 1 else 0) ≤ c s := by
    by_cases hsi : s = r.i
    · by_cases hsj : s = r.j
      · have hij : r.i = r.j := hsi ▸ hsj
        rw [if_pos hij] at h2
        rw [if_pos hsi, if_pos hsj, hsj]
        omega
      · have hij : ¬ r.i = r.j := fun h => hsj (hsi.trans h)
        rw [if_neg hij] at h2
        rw [if_pos hsi, if_neg hsj, hsi]
        omega
    · by_cases hsj : s = r.j
      · rw [if_neg hsi, if_pos hsj, hsj]
        split at h2 <;> omega
      · rw [if_neg hsi, if_neg hsj]
        have := hc s
        omega
  omega

theorem rand_nonneg (seed k : ℕ) : 0 ≤ rand seed k := by
  unfold rand
  positivity

theorem rand_lt_one (seed k : ℕ) : rand seed k < 1 := by
  unfold rand
  rw [div_lt_one (by positivity)]
  have h : randNat seed k < 2 ^ 64 := Nat.mod_lt _ (by norm_num)
  exact_mod_cast h

theorem selectIdx_lt_length (ws : List ℚ) (u : ℚ)
    (hnn : ∀ w ∈ ws, 0 ≤ w) (h0 : 0 ≤ u) (hu : u < ws.sum) :
    selectIdx ws u < ws.length := by
  induction ws generalizing u with
  | nil => simp at hu; linarith
  | cons w ws ih =>
    by_cases h : u < w
    · simp [selectIdx, h]
    · rw [selectIdx, if_neg h]
      have hw : w ≤ u := le_of_not_lt h
      have := ih (u - w) (fun x hx => hnn x (List.mem_cons_of_mem _ hx))
        (by linarith) (by simp [List.sum_cons] at hu; linarith)
      simpa using this

theorem selectIdx_pos_weight (ws : List ℚ) (u : ℚ)
    (hnn : ∀ w ∈ ws, 0 ≤ w) (h0 : 0 ≤ u) (h : selectIdx ws u < ws.length) :
    0 < ws.get ⟨selectIdx ws u, h⟩ := by
  induction ws generalizing u with
  | nil => simp at h
  | cons w ws ih =>
    by_cases hu : u < w
    · simp only [selectIdx, if_pos hu]
      simpa using lt_of_le_of_lt h0 hu
    · have hw : w ≤ u := le_of_not_lt hu
      have hrec := ih (u - w) (fun x hx => hnn x (List.mem_cons_of_mem _ hx))
        (by linarith)
        (by
          have := h
          rw [selectIdx, if_neg hu] at this
          simpa using this)
      simpa [selectIdx, if_neg hu] using hrec

theorem selectIdx_window (ws : List ℚ) (u : ℚ) (k : ℕ)
    (hnn : ∀ w ∈ ws, 0 ≤ w) (h0 : 0 ≤ u)
    (hlo : (ws.take k).sum ≤ u) (hhi : u < (ws.take (k + 1)).sum) :
    selectIdx ws u = k := by
  induction ws generalizing u k with
  | nil => simp at hhi; linarith
  | cons w ws ih =>
    cases k with
    | zero =>
      simp only [List.take, List.sum_cons, List.sum_nil, add_zero] at hhi
      simp [selectIdx, hhi]
    | succ k =>
      have htk : 0 ≤ (ws.take k).sum :=
        List.sum_nonneg fun x hx => hnn x (List.mem_cons_of_mem _ (List.mem_of_mem_take hx))
      simp only [List.take, List.sum_cons] at hlo hhi
      have hw : ¬ u < w := by push_neg; nlinarith [htk]
      rw [selectIdx, if_neg hw]
      have := ih (u - w) k (fun x hx => hnn x (List.mem_cons_of_mem _ hx))
        (by push_neg at hw; linarith) (by linarith) (by linarith)
      omega

theorem csum_nonneg {q : ℕ} {c : Config q} (hc : ∀ s, 0 ≤ c s) : 0 ≤ csum c :=
  Finset.sum_nonneg fun s _ => hc s

theorem weightsOf_length {q : ℕ} (c : Config q) : (weightsOf c).length = q := by
  simp [weightsOf]

theorem weightsOf_nonneg {q : ℕ} {c : Config q} (hc : ∀ s, 0 ≤ c s) :
    ∀ w ∈ weightsOf c, 0 ≤ w := by
  intro w hw
  simp only [weightsOf, List.mem_map] at hw
  obtain ⟨s, _, rfl⟩ := hw
  exact_mod_cast hc s

theorem sampleAgent_pos {q : ℕ} {c : Config q} {target : ℚ} {i : Fin q}
    (hc : ∀ s, 0 ≤ c s) (ht : 0 ≤ target) (h : sampleAgent c target = some i) :
    1 ≤ c i := by
  unfold sampleAgent at h
  simp only at h
  split at h
  · rename_i hlt
    have hi : i = ⟨selectIdx (weightsOf c) target, hlt⟩ := by
      injection h with h; exact h.symm
    have hlen : selectIdx (weightsOf c) target < (weightsOf c).length := by
      rw [weightsOf_length]; exact hlt
    have hpos := selectIdx_pos_weight (weightsOf c) target
      (weightsOf_nonneg hc) ht hlen
    have hget : (weightsOf c).get ⟨selectIdx (weightsOf c) target, hlen⟩ = (c i : ℚ) := by
      rw [hi]
      simp [weightsOf, List.get_eq_getElem, List.getElem_map, List.getElem_finRange]
    rw [hget] at hpos
    exact_mod_cast hpos
  · exact absurd h (by simp)

theorem decOne_nonneg {q : ℕ} {c : Config q} {i : Fin q}
    (hc : ∀ s, 0 ≤ c s) (hi : 1 ≤ c i) : ∀ s, 0 ≤ decOne c i s := by
  intro s
  unfold decOne
  split
  · rename_i hs; rw [hs]; omega
  · exact hc s

theorem interactCore_enabled {q : ℕ} {tb : Table q} {c : Config q}
    {u1 u2 u3 : ℚ} {r : Rxn q}
    (hc : ∀ s, 0 ≤ c s) (h1 : 0 ≤ u1) (h2 : 0 ≤ u2)
    (h : interactCore tb c u1 u2 u3 = some r) : Enabled c r := by
  unfold interactCore at h
  rw [Option.bind_eq_some] at h
  obtain ⟨i, hi, h⟩ := h
  rw [Option.bind_eq_some] at h
  obtain ⟨j, hj, h⟩ := h
  rw [Option.bind_eq_some] at h
  obtain ⟨d, _, h⟩ := h
  rw [Option.map_eq_some'] at h
  obtain ⟨o, _, hr⟩ := h
  have hci : 1 ≤ c i := sampleAgent_pos hc
    (mul_nonneg h1 (by exact_mod_cast csum_nonneg hc)) hi
  have hc1 : ∀ s, 0 ≤ decOne c i s := decOne_nonneg hc hci
  have hcj : 1 ≤ decOne c i j := sampleAgent_pos hc1
    (mul_nonneg h2 (by exact_mod_cast csum_nonneg hc1)) hj
  subst hr
  refine ⟨hci, ?_⟩
  unfold decOne at hcj
  by_cases hij : i = j
  · subst hij
    rw [if_pos rfl] at hcj
    rw [if_pos rfl]
    show 2 ≤ c i
    omega
  · have hji : ¬ j = i := fun h => hij h.symm
    rw [if_neg hji] at hcj
    simpa [hij] using hcj

theorem interactOnce_cases {q : ℕ} (tb : Table q) (seed ctr : ℕ) {c : Config q}
    (hc : ∀ s, 0 ≤ c s) :
    (interactOnce tb seed c ctr).1 = c ∨
      ∃ r : Rxn q, Enabled c r ∧ (interactOnce tb seed c ctr).1 = applyRxn c r := by
  unfold interactOnce
  rcases h : interactCore tb c (rand seed ctr) (rand seed (ctr + 1)) (rand seed (ctr + 2)) with _ | r
  · left; rfl
  · right
    exact ⟨r, interactCore_enabled hc (rand_nonneg _ _) (rand_nonneg _ _) h, rfl⟩

theorem denom_nonneg {n : ℤ} (hn : 0 ≤ n) : 0 ≤ ((n : ℚ)) * ((n : ℚ) - 1) / 2 := by
  rcases lt_or_ge n 1 with h | h
  · have : n = 0 := by omega
    subst this
    norm_num
  · have h1 : (1 : ℚ) ≤ (n : ℚ) := by exact_mod_cast h
    have := mul_nonneg (by linarith : (0 : ℚ) ≤ (n : ℚ)) (by linarith : (0 : ℚ) ≤ (n : ℚ) - 1)
    linarith

theorem propensity_nonneg {q : ℕ} {c : Config q} {r : Rxn q} {nQ : ℚ}
    (hc : ∀ s, 0 ≤ c s) (hn : nQ = ((csum c : ℚ))) (hp : 0 ≤ r.p) :
    0 ≤ propensity nQ c r := by
  unfold propensity
  apply div_nonneg
  · apply mul_nonneg _ hp
    by_cases hij : r.i = r.j
    · rw [if_pos hij, ← hij]
      rcases eq_or_lt_of_le (hc r.i) with h | h
      · rw [← h]; norm_num
      · have h1 : (1 : ℚ) ≤ (c r.i : ℚ) := by exact_mod_cast h
        nlinarith
    · rw [if_neg hij]
      have := hc r.i
      have := hc r.j
      apply mul_nonneg
      · exact_mod_cast hc r.i
      · simpa using (by exact_mod_cast hc r.j : (0 : ℚ) ≤ (c r.j : ℚ))
  · rw [hn]
    exact denom_nonneg (csum_nonneg hc)

theorem propensity_pos_enabled {q : ℕ} {c : Config q} {r : Rxn q} {nQ : ℚ}
    (hc : ∀ s, 0 ≤ c s) (hpos : 0 < propensity nQ c r) : Enabled c r := by
  unfold propensity at hpos
  set D := nQ * (nQ - 1) / 2 with hD
  set N := (c r.i : ℚ) * ((c r.j : ℚ) - (if r.i = r.j then 1 else 0)) * r.p with hN
  have hDne : D ≠ 0 := by
    intro h
    rw [h, div_zero] at hpos
    exact lt_irrefl 0 hpos
  have hNpos : 0 < N / D := hpos
  have hci0 : (0 : ℚ) ≤ (c r.i : ℚ) := by exact_mod_cast hc r.i
  have hcj0 : (0 : ℚ) ≤ (c r.j : ℚ) := by exact_mod_cast hc r.j
  have hNne : N ≠ 0 := by
    intro h
    rw [h, zero_div] at hNpos
    exact lt_irrefl 0 hNpos
  have hcine : (c r.i : ℚ) ≠ 0 := by
    intro h
    apply hNne
    rw [hN, h, zero_mul, zero_mul]
  have hci : 1 ≤ c r.i := by
    have : (0 : ℚ) < (c r.i : ℚ) := lt_of_le_of_ne hci0 (Ne.symm hcine)
    have : 0 < c r.i := by exact_mod_cast this
    omega
  refine ⟨hci, ?_⟩
  have hfac : ((c r.j : ℚ) - (if r.i = r.j then 1 else 0)) ≠ 0 := by
    intro h
    apply hNne
    rw [hN, h, mul_zero, zero_mul]
  by_cases hij : r.i = r.j
  · rw [if_pos hij]
    rw [if_pos hij] at hfac
    have hcj1 : 1 ≤ c r.j := by rw [← hij]; exact hci
    have : (c r.j : ℚ) ≠ 1 := by
      intro h
      apply hfac
      rw [h]; ring
    have : c r.j ≠ 1 := by exact_mod_cast this
    omega
  · rw [if_neg hij]
    rw [if_neg hij, sub_zero] at hfac
    have : (0 : ℚ) < (c r.j : ℚ) := lt_of_le_of_ne hcj0 (Ne.symm hfac)
    have : 0 < c r.j := by exact_mod_cast this
    omega

theorem reactionsOf_p_nonneg {q : ℕ} {tb : Table q} (hWF : WFTable tb) :
    ∀ r ∈ reactionsOf tb, 0 ≤ r.p := by
  intro r hr
  unfold reactionsOf at hr
  rw [List.mem_flatMap] at hr
  obtain ⟨i, _, hr⟩ := hr
  rw [List.mem_flatMap] at hr
  obtain ⟨j, _, hr⟩ := hr
  rcases htb : tb i j with _ | d
  · rw [htb] at hr; simp at hr
  · rw [htb] at hr
    rw [List.mem_map] at hr
    obtain ⟨e, he, rfl⟩ := hr
    exact hWF i j d htb e (List.mem_of_mem_filter he)

theorem gStep_cases {q : ℕ} (rs : List (Rxn q)) (nQ : ℚ) (c : Config q) (u : ℚ)
    (hc : ∀ s, 0 ≤ c s) (hn : nQ = ((csum c : ℚ))) (hp : ∀ r ∈ rs, 0 ≤ r.p)
    (hu0 : 0 ≤ u) (hu1 : u < 1) :
    (gStep rs nQ c u).1 = c ∨
      ∃ r : Rxn q, Enabled c r ∧ (gStep rs nQ c u).1 = applyRxn c r := by
  by_cases hA : totalProp nQ c rs = 0
  · left
    unfold gStep
    simp [hA]
  · have hnn : ∀ w ∈ rs.map (propensity nQ c), 0 ≤ w := by
      intro w hw
      rw [List.mem_map] at hw
      obtain ⟨r, hr, rfl⟩ := hw
      exact propensity_nonneg hc hn (hp r hr)
    have hA0 : 0 ≤ totalProp nQ c rs := List.sum_nonneg hnn
    have hApos : 0 < totalProp nQ c rs := lt_of_le_of_ne hA0 (Ne.symm hA)
    have htpos : 0 ≤ u * totalProp nQ c rs :=
      mul_nonneg hu0 (le_of_lt hApos)
    have htlt : u * totalProp nQ c rs < (rs.map (propensity nQ c)).sum := by
      have hmul := mul_lt_mul_of_pos_right hu1 hApos
      rw [one_mul] at hmul
      exact hmul
    have hlen := selectIdx_lt_length _ _ hnn htpos htlt
    have hklt : selectIdx (rs.map (propensity nQ c)) (u * totalProp nQ c rs) < rs.length := by
      rw [List.length_map] at hlen
      exact hlen
    have hget : rs.get? (selectIdx (rs.map (propensity nQ c)) (u * totalProp nQ c rs)) =
        some (rs.get ⟨_, hklt⟩) := List.get?_eq_get hklt
    right
    refine ⟨rs.get ⟨_, hklt⟩, ?_, ?_⟩
    · have hw := selectIdx_pos_weight _ _ hnn htpos hlen
      have hwe : (rs.map (propensity nQ c)).get ⟨_, hlen⟩ =
          propensity nQ c (rs.get ⟨_, hklt⟩) := by
        simp [List.get_eq_getElem, List.getElem_map]
      rw [hwe] at hw
      exact propensity_pos_enabled hc hw
    · unfold gStep
      simp only [hA, if_neg hA, hget]
      simp

theorem reachable_invariant {q : ℕ} {tb : Table q} {c₀ c : Config q}
    (hreach : ReachableFrom tb c₀ c) (hWF : WFTable tb) (hnn : ∀ s, 0 ≤ c₀ s) :
    csum c = csum c₀ ∧ ∀ s, 0 ≤ c s := by
  induction hreach with
  | refl => exact ⟨rfl, hnn⟩
  | tail hsteps hstep ih =>
    obtain ⟨ihsum, ihnn⟩ := ih
    rcases hstep with ⟨seed, ctr, rfl⟩ | ⟨seed, ctr, rfl⟩
    · rcases interactOnce_cases tb seed ctr ihnn with h | ⟨r, hEn, h⟩
      · rw [h]; exact ⟨ihsum, ihnn⟩
      · rw [h]
        exact ⟨(csum_applyRxn _ r).trans ihsum, applyRxn_nonneg ihnn hEn⟩
    · rcases gStep_cases (reactionsOf tb) _ _ (rand seed ctr) ihnn rfl
        (reactionsOf_p_nonneg hWF) (rand_nonneg _ _) (rand_lt_one _ _) with h | ⟨r, hEn, h⟩
      · rw [h]; exact ⟨ihsum, ihnn⟩
      · rw [h]
        exact ⟨(csum_applyRxn _ r).trans ihsum, applyRxn_nonneg ihnn hEn⟩

theorem gStep_none_iff {q : ℕ} (rs : List (Rxn q)) (nQ : ℚ) (c : Config q) (u : ℚ) :
    (gStep rs nQ c u).2 = none ↔ totalProp nQ c rs = 0 := by
  unfold gStep
  by_cases hA : totalProp nQ c rs = 0
  · simp [hA]
  · simp only [hA, if_neg hA, iff_false]
    rcases hg : rs.get? (selectIdx (rs.map (propensity nQ c))
        (u * totalProp nQ c rs)) with _ | r
    · simp [hg, hA]
    · simp [hg, hA]

theorem gStep_silent_fst {q : ℕ} {rs : List (Rxn q)} {nQ : ℚ} {c : Config q} {u : ℚ}
    (hA : totalProp nQ c rs = 0) : (gStep rs nQ c u).1 = c := by
  unfold gStep
  simp [hA]

theorem gStep_rate {q : ℕ} (rs : List (Rxn q)) (nQ : ℚ) (c : Config q) (u : ℚ)
    (hA : ¬ totalProp nQ c rs = 0) :
    (gStep rs nQ c u).2 = some (totalProp nQ c rs * nQ) := by
  unfold gStep
  simp only [hA, if_neg hA]
  rcases hg : rs.get? (selectIdx (rs.map (propensity nQ c))
      (u * totalProp nQ c rs)) with _ | r
  · simp [hg]
  · simp [hg]

theorem gapSurrogate_nonneg (rate u : ℚ) : 0 ≤ gapSurrogate rate u := le_max_left _ _

theorem mbRun_time {q : ℕ} (tb : Table q) (seed : ℕ) (nQ : ℚ) (B : ℕ)
    (s : Config q × ℚ × ℕ) : (mbRun tb seed nQ B s).2.1 = s.2.1 + B / nQ := by
  induction B generalizing s with
  | zero => simp [mbRun]
  | succ b ih =>
    simp only [mbRun]
    rw [ih]
    push_cast
    ring

theorem mbRun_config {q : ℕ} (tb : Table q) (seed : ℕ) (nQ : ℚ) (B : ℕ)
    (s : Config q × ℚ × ℕ) (hc : ∀ x, 0 ≤ s.1 x) :
    (∀ x, 0 ≤ (mbRun tb seed nQ B s).1 x) ∧
      csum (mbRun tb seed nQ B s).1 = csum s.1 := by
  induction B generalizing s with
  | zero => exact ⟨hc, rfl⟩
  | succ b ih =>
    simp only [mbRun]
    rcases interactOnce_cases tb seed s.2.2 hc with h | ⟨r, hEn, h⟩
    · have := ih ((interactOnce tb seed s.1 s.2.2).1, s.2.1 + 1 / nQ,
        (interactOnce tb seed s.1 s.2.2).2) (by rw [h]; exact hc)
      exact ⟨this.1, by rw [this.2, h]⟩
    · have := ih ((interactOnce tb seed s.1 s.2.2).1, s.2.1 + 1 / nQ,
        (interactOnce tb seed s.1 s.2.2).2)
        (by rw [h]; exact applyRxn_nonneg hc hEn)
      refine ⟨this.1, ?_⟩
      rw [this.2, h]
      exact csum_applyRxn _ _

theorem recordMaybe_fields {q : ℕ} (opts : SimOpts) (s : SimState q) :
    (recordMaybe opts s).config = s.config ∧ (recordMaybe opts s).t = s.t ∧
    (recordMaybe opts s).done = s.done ∧ (recordMaybe opts s).ctr = s.ctr ∧
    ((recordMaybe opts s).history = s.history ∨
      (recordMaybe opts s).history = s.history ++ [(s.t, s.config)]) := by
  unfold recordMaybe
  split <;> simp

theorem driverStep_props {q : ℕ} (tb : Table q) (opts : SimOpts) (st : SimState q)
    (hWF : WFTable tb) (hc : ∀ s, 0 ≤ st.config s) :
    (∀ s, 0 ≤ (driverStep tb opts st).config s) ∧
    csum (driverStep tb opts st).config = csum st.config ∧
    st.t ≤ (driverStep tb opts st).t ∧
    ((driverStep tb opts st).history = st.history ∨
      (driverStep tb opts st).history =
        st.history ++ [((driverStep tb opts st).t, (driverStep tb opts st).config)]) ∧
    (driverStep tb opts st).done = st.done := by
  have main : ∀ s : SimState q, (∀ x, 0 ≤ s.config x) → csum s.config = csum st.config →
      st.t ≤ s.t → s.history = st.history → s.done = st.done →
      (∀ x, 0 ≤ (recordMaybe opts s).config x) ∧
      csum (recordMaybe opts s).config = csum st.config ∧
      st.t ≤ (recordMaybe opts s).t ∧
      ((recordMaybe opts s).history = st.history ∨
        (recordMaybe opts s).history =
          st.history ++ [((recordMaybe opts s).t, (recordMaybe opts s).config)]) ∧
      (recordMaybe opts s).done = st.done := by
    intro s h1 h2 h3 h4 h5
    obtain ⟨hcf, ht, hd, _, hh⟩ := recordMaybe_fields opts s
    refine ⟨by rw [hcf]; exact h1, by rw [hcf]; exact h2, by rw [ht]; exact h3, ?_,
      by rw [hd]; exact h5⟩
    rcases hh with hh | hh
    · left; rw [hh, h4]
    · right; rw [hh, h4, ht, hcf]
  unfold driverStep
  simp only
  by_cases huse : useGillespieB tb opts st.config
  · rw [if_pos huse]
    have hg := gStep_cases (reactionsOf tb) ((csum st.config : ℚ)) st.config
      (rand opts.seed st.ctr) hc rfl (reactionsOf_p_nonneg hWF)
      (rand_nonneg _ _) (rand_lt_one _ _)
    have hcfg : (∀ x, 0 ≤ (gStep (reactionsOf tb) ((csum st.config : ℚ)) st.config
        (rand opts.seed st.ctr)).1 x) ∧
        csum (gStep (reactionsOf tb) ((csum st.config : ℚ)) st.config
          (rand opts.seed st.ctr)).1 = csum st.config := by
      rcases hg with h | ⟨r, hEn, h⟩
      · rw [h]; exact ⟨hc, rfl⟩
      · rw [h]; exact ⟨applyRxn_nonneg hc hEn, csum_applyRxn _ _⟩
    rcases hres : (gStep (reactionsOf tb) ((csum st.config : ℚ)) st.config
        (rand opts.seed st.ctr)).2 with _ | rate
    · exact main _ hcfg.1 hcfg.2 le_rfl rfl rfl
    · exact main _ hcfg.1 hcfg.2
        (le_add_of_nonneg_right (gapSurrogate_nonneg _ _)) rfl rfl
  · rw [if_neg huse]
    have hmb := mbRun_config tb opts.seed ((csum st.config : ℚ))
      (batchSize (csum st.config).toNat) (st.config, st.t, st.ctr) hc
    have htm := mbRun_time tb opts.seed ((csum st.config : ℚ))
      (batchSize (csum st.config).toNat) (st.config, st.t, st.ctr)
    refine main _ hmb.1 hmb.2 ?_ rfl rfl
    rw [htm]
    have hnQ : (0 : ℚ) ≤ ((csum st.config : ℚ)) := by
      exact_mod_cast csum_nonneg hc
    have : (0 : ℚ) ≤ (batchSize (csum st.config).toNat : ℚ) / ((csum st.config : ℚ)) :=
      div_nonneg (by positivity) hnQ
    linarith

theorem driverStep_done {q : ℕ} (tb : Table q) (opts : SimOpts) (st : SimState q) :
    (driverStep tb opts st).done = st.done := by
  unfold driverStep
  simp only
  by_cases huse : useGillespieB tb opts st.config
  · rw [if_pos huse]
    rcases hres : (gStep (reactionsOf tb) ((csum st.config : ℚ)) st.config
        (rand opts.seed st.ctr)).2 with _ | rate
    · exact (recordMaybe_fields opts _).2.2.1
    · exact (recordMaybe_fields opts _).2.2.1
  · rw [if_neg huse]
    exact (recordMaybe_fields opts _).2.2.1

theorem runAux_silent_stop {q : ℕ} (tb : Table q) (opts : SimOpts) (stop : StopCond q)
    (fuel : ℕ) (st : SimState q) (h : silentB tb st.config = true) :
    runAux tb opts stop (fuel + 1) st = { st with done := true } := by
  unfold runAux
  rw [h]
  simp

theorem runAux_done_silent {q : ℕ} (tb : Table q) (opts : SimOpts) (fuel : ℕ)
    (st : SimState q) (hdone : st.done = false)
    (hres : (runAux tb opts StopCond.untilSilent fuel st).done = true) :
    silentB tb (runAux tb opts StopCond.untilSilent fuel st).config = true := by
  induction fuel generalizing st with
  | zero =>
    unfold runAux at hres
    rw [hdone] at hres
    exact absurd hres (by simp)
  | succ fuel ih =>
    by_cases hcond : silentB tb st.config = true
    · rw [runAux_silent_stop tb opts _ fuel st hcond]
      exact hcond
    · have hcond' : (silentB tb st.config || stopMet StopCond.untilSilent st) = false := by
        simp [stopMet, Bool.or_eq_false_iff]
        exact Bool.not_eq_true _ ▸ (by simpa using hcond)
      unfold runAux
      rw [hcond']
      simp only [Bool.false_eq_true, if_false]
      unfold runAux at hres
      rw [hcond'] at hres
      simp only [Bool.false_eq_true, if_false] at hres
      exact ih (driverStep tb opts st) ((driverStep_done tb opts st).trans hdone) hres

theorem runAux_done_pred {q : ℕ} (tb : Table q) (opts : SimOpts) (fuel : ℕ)
    (f : List (Fin q × ℤ) → Bool) (st : SimState q) (hdone : st.done = false)
    (hres : (runAux tb opts (StopCond.predCond f) fuel st).done = true)
    (hsil : silentB tb (runAux tb opts (StopCond.predCond f) fuel st).config = false) :
    f (configDict (runAux tb opts (StopCond.predCond f) fuel st).config) = true := by
  induction fuel generalizing st with
  | zero =>
    unfold runAux at hres
    rw [hdone] at hres
    exact absurd hres (by simp)
  | succ fuel ih =>
    by_cases hcond : (silentB tb st.config || stopMet (StopCond.predCond f) st) = true
    · unfold runAux at hres hsil ⊢
      rw [hcond] at hres hsil ⊢
      simp only [if_true] at hsil ⊢
      have : silentB tb st.config = false := hsil
      rcases Bool.or_eq_true_iff.mp hcond with h | h
      · rw [this] at h; exact absurd h (by simp)
      · exact h
    · have hcond' : (silentB tb st.config || stopMet (StopCond.predCond f) st) = false :=
        Bool.not_eq_true _ ▸ (by simpa using hcond)
      unfold runAux at hres hsil ⊢
      rw [hcond'] at hres hsil ⊢
      simp only [Bool.false_eq_true, if_false] at hres hsil ⊢
      exact ih (driverStep tb opts st) ((driverStep_done tb opts st).trans hdone) hres hsil

theorem runAux_props {q : ℕ} (tb : Table q) (opts : SimOpts) (stop : StopCond q)
    (fuel : ℕ) (st : SimState q) (hWF : WFTable tb) (hc : ∀ s, 0 ≤ st.config s)
    (hhist : ∀ x ∈ st.history, x.1 ≤ st.t)
    (hsort : List.Pairwise (· ≤ ·) (st.history.map Prod.fst)) :
    (∀ s, 0 ≤ (runAux tb opts stop fuel st).config s) ∧
    st.t ≤ (runAux tb opts stop fuel st).t ∧
    (∀ x ∈ (runAux tb opts stop fuel st).history, x.1 ≤ (runAux tb opts stop fuel st).t) ∧
    List.Pairwise (· ≤ ·) ((runAux tb opts stop fuel st).history.map Prod.fst) ∧
    (∃ tail, (runAux tb opts stop fuel st).history = st.history ++ tail) := by
  induction fuel generalizing st with
  | zero => exact ⟨hc, le_rfl, hhist, hsort, [], (List.append_nil _).symm⟩
  | succ fuel ih =>
    unfold runAux
    split
    · exact ⟨hc, le_rfl, hhist, hsort, [], (List.append_nil _).symm⟩
    · obtain ⟨h1, _, h3, hh, h5⟩ := driverStep_props tb opts st hWF hc
      have hhist1 : ∀ x ∈ (driverStep tb opts st).history, x.1 ≤ (driverStep tb opts st).t := by
        intro x hx
        rcases hh with hh | hh
        · rw [hh] at hx
          exact le_trans (hhist x hx) h3
        · rw [hh] at hx
          rcases List.mem_append.mp hx with hx | hx
          · exact le_trans (hhist x hx) h3
          · rcases List.mem_singleton.mp hx with rfl
            exact le_rfl
      have hsort1 : List.Pairwise (· ≤ ·) ((driverStep tb opts st).history.map Prod.fst) := by
        rcases hh with hh | hh
        · rw [hh]; exact hsort
        · rw [hh, List.map_append, List.pairwise_append]
          refine ⟨hsort, by simp, ?_⟩
          intro a ha b hb
          rw [List.mem_map] at ha
          obtain ⟨x, hx, rfl⟩ := ha
          simp only [List.map_cons, List.map_nil, List.mem_singleton] at hb
          rw [hb]
          exact le_trans (hhist x hx) h3
      obtain ⟨g1, g2, g3, g4, tail, g5⟩ := ih (driverStep tb opts st) h1 hhist1 hsort1
      refine ⟨g1, le_trans h3 g2, g3, g4, ?_⟩
      rcases hh with hh | hh
      · exact ⟨tail, by rw [g5, hh]⟩
      · exact ⟨[((driverStep tb opts st).t, (driverStep tb opts st).config)] ++ tail,
          by rw [g5, hh, List.append_assoc]⟩

theorem lookupRule_cons {q : ℕ} (e : DetEntry q) (es : List (DetEntry q)) (i j : Fin q) :
    lookupRule (e :: es) i j = if e.1 = (i, j) then some e.2 else lookupRule es i j := by
  unfold lookupRule
  rw [List.find?_cons]
  by_cases h : e.1 = (i, j)
  · simp [h]
  · simp [h]

theorem optionOrMap {α β : Type} (o o' : Option α) (f : α → β) :
    (o.or o').map f = (o.map f).or (o'.map f) := by
  rcases o with _ | a <;> rfl

theorem lookupRule_append {q : ℕ} (l₁ l₂ : List (DetEntry q)) (i j : Fin q) :
    lookupRule (l₁ ++ l₂) i j = (lookupRule l₁ i j).or (lookupRule l₂ i j) := by
  unfold lookupRule
  rw [List.find?_append]
  exact optionOrMap _ _ _

theorem lookup_mirror_diag {q : ℕ} (entries : List (DetEntry q)) (i : Fin q) :
    lookupRule (mirrorEntries entries) i i = none := by
  unfold lookupRule
  rw [Option.map_eq_none', List.find?_eq_none]
  intro e he
  unfold mirrorEntries at he
  rw [List.mem_filterMap] at he
  obtain ⟨e0, _, he0⟩ := he
  by_cases hd : e0.1.1 = e0.1.2
  · rw [if_pos hd] at he0
    exact absurd he0 (by simp)
  · rw [if_neg hd] at he0
    have hkey : e.1 = (e0.1.2, e0.1.1) := by
      have h := Option.some.inj he0
      rw [← h]
    simp only [hkey, decide_eq_true_eq]
    intro hcon
    apply hd
    have h1 : e0.1.2 = i := congrArg Prod.fst hcon
    have h2 : e0.1.1 = i := congrArg Prod.snd hcon
    rw [h1, h2]

theorem lookup_mirror {q : ℕ} (entries : List (DetEntry q)) (i j : Fin q)
    (hij : i ≠ j) :
    lookupRule (mirrorEntries entries) i j =
      (lookupRule entries j i).map fun o => (o.2, o.1) := by
  induction entries with
  | nil => simp [mirrorEntries, lookupRule]
  | cons e es ih =>
    by_cases hd : e.1.1 = e.1.2
    · have hm : mirrorEntries (e :: es) = mirrorEntries es := by
        unfold mirrorEntries
        rw [List.filterMap_cons, if_pos hd]
      have hk : ¬ e.1 = (j, i) := by
        intro h
        apply hij
        have h1 : e.1.1 = j := congrArg Prod.fst h
        have h2 : e.1.2 = i := congrArg Prod.snd h
        rw [← h2, ← hd, h1]
      rw [hm, ih, lookupRule_cons, if_neg hk]
    · have hm : mirrorEntries (e :: es) =
          ((e.1.2, e.1.1), (e.2.2, e.2.1)) :: mirrorEntries es := by
        unfold mirrorEntries
        rw [List.filterMap_cons, if_neg hd]
      rw [hm, lookupRule_cons, lookupRule_cons]
      by_cases hk : e.1 = (j, i)
      · have hk2 : ((e.1.2, e.1.1) : Fin q × Fin q) = (i, j) := by
          have h1 : e.1.1 = j := congrArg Prod.fst hk
          have h2 : e.1.2 = i := congrArg Prod.snd hk
          rw [h1, h2]
        rw [if_pos hk2, if_pos hk]
        rfl
      · have hk2 : ¬ ((e.1.2, e.1.1) : Fin q × Fin q) = (i, j) := by
          intro h
          apply hk
          have h1 : e.1.2 = i := congrArg Prod.fst h
          have h2 : e.1.1 = j := congrArg Prod.snd h
          have : e.1 = (e.1.1, e.1.2) := rfl
          rw [this, h1, h2]
        rw [if_neg hk2, if_neg hk]
        exact ih

theorem detTable_sym_eq {q : ℕ} (entries : List (DetEntry q)) (i j : Fin q) :
    detTable true entries i j = detTable false (mirrorClosure entries) i j := by
  unfold detTable mirrorClosure
  rw [lookupRule_append]
  rcases h1 : lookupRule entries i j with _ | o
  · rw [Option.none_or]
    by_cases hij : i = j
    · subst hij
      rw [lookup_mirror_diag, h1]
      simp
    · rw [lookup_mirror entries i j hij]
      rcases h2 : lookupRule entries j i with _ | o
      · simp
      · simp
  · rfl

theorem sumP_bump {q : ℕ} (o : OutPair q) (p : ℚ) (d : Dist q) :
    sumP (bump o p d) = p + sumP d := by
  induction d with
  | nil => simp [bump, sumP]
  | cons e rest ih =>
    unfold bump
    by_cases h : o = e.1
    · rw [if_pos h]
      simp only [sumP, List.map_cons, List.sum_cons]
      ring
    · rw [if_neg h]
      simp only [sumP, List.map_cons, List.sum_cons] at ih ⊢
      rw [ih]
      ring

theorem sumP_foldl {q : ℕ} (d : Dist q) :
    ∀ acc : Dist q, sumP (d.foldl (fun acc e => bump e.1 e.2 acc) acc) =
      sumP acc + sumP d := by
  induction d with
  | nil => intro acc; simp [sumP]
  | cons e rest ih =>
    intro acc
    rw [List.foldl_cons, ih, sumP_bump]
    simp only [sumP, List.map_cons, List.sum_cons]
    ring

theorem sumP_mergeDup {q : ℕ} (d : Dist q) : sumP (mergeDup d) = sumP d := by
  unfold mergeDup
  rw [sumP_foldl]
  simp [sumP]

theorem sumP_filter_ne_zero {q : ℕ} (d : Dist q) :
    sumP (d.filter fun e => decide (e.2 ≠ 0)) = sumP d := by
  induction d with
  | nil => rfl
  | cons e rest ih =>
    rw [List.filter_cons]
    by_cases h : e.2 = 0
    · have hd : decide (e.2 ≠ 0) = false := by simp [h]
      rw [hd]
      simp only [Bool.false_eq_true, if_false]
      rw [ih]
      simp [sumP, h]
    · have hd : decide (e.2 ≠ 0) = true := by simp [h]
      rw [hd, if_pos rfl]
      simp only [sumP, List.map_cons, List.sum_cons] at ih ⊢
      rw [ih]

theorem sumP_normalizeDist {q : ℕ} (d : Dist q) : sumP (normalizeDist d) = sumP d := by
  unfold normalizeDist
  rw [sumP_filter_ne_zero, sumP_mergeDup]

theorem normalizeDist_no_zero {q : ℕ} (d : Dist q) :
    ∀ e ∈ normalizeDist d, e.2 ≠ 0 := by
  intro e he
  unfold normalizeDist at he
  have := List.of_mem_filter he
  simpa using this

theorem exOk_false_iff {ε α : Type} (x : Except ε α) :
    exOk x = false ↔ ∃ e, x = .error e := by
  rcases x with e | a
  · simp [exOk]
  · simp [exOk]

theorem buildEntry_dist_ok_iff {q : ℕ} (i j : Fin q) (l : Dist q) :
    exOk (buildEntry i j (.distOut l)) = true ↔ |sumP (normalizeDist l) - 1| ≤ tol := by
  unfold buildEntry
  simp only
  split
  · simp only [exOk, true_iff]
    assumption
  · simp only [exOk, Bool.false_eq_true, false_iff]
    assumption

theorem buildFromFun_ok_iff {q : ℕ} (f : Fin q → Fin q → RuleOutput q) :
    exOk (buildFromFun f) = true ↔ ∀ i j, exOk (buildEntry i j (f i j)) = true := by
  unfold buildFromFun
  split
  · rename_i h
    simp only [exOk, true_iff]
    rw [List.all_eq_true] at h
    intro i j
    have hi := h i (List.mem_finRange i)
    rw [List.all_eq_true] at hi
    exact hi j (List.mem_finRange j)
  · rename_i h
    simp only [exOk, Bool.false_eq_true, false_iff]
    intro hall
    apply h
    rw [List.all_eq_true]
    intro i _
    rw [List.all_eq_true]
    intro j _
    exact hall i j

theorem wf_of_forall {q : ℕ} (tb : Table q)
    (h : ∀ i j, ∀ e ∈ (tb i j).getD [], 0 ≤ e.2) : WFTable tb := by
  intro i j d hd e he
  have := h i j
  rw [hd] at this
  exact this e he

theorem silentB_AM_false : silentB tbAM cAM = false := by
  unfold silentB
  rw [decide_eq_false_iff_not]
  have hre : reactionsOf tbAM =
      [⟨0, 1, 2, 2, 1⟩, ⟨0, 2, 0, 0, 1⟩, ⟨1, 2, 1, 1, 1⟩] := by decide
  have hn : ((csum cAM : ℚ)) = 100 := by
    have h : csum cAM = 100 := by decide
    rw [h]
    norm_num
  rw [hre, hn]
  simp only [totalProp, propensity, List.map_cons, List.map_nil, List.sum_cons,
    List.sum_nil]
  rw [show cAM 0 = (60 : ℤ) from by decide, show cAM 1 = (40 : ℤ) from by decide,
    show cAM 2 = (0 : ℤ) from by decide]
  norm_num [show ¬ (0 : Fin 3) = 2 from by decide, show ¬ (1 : Fin 3) = 2 from by decide]

/-- Claim C1: every configuration reachable by any sequence of engine steps
(MultiBatch interaction or Gillespie step) from an initial configuration of
`n` agents satisfies `Σ c[i] = n` and `c[i] ≥ 0` for every state index, and
every engine operation on the configuration preserves both. -/
theorem reachable_conservation_nonneg {q : ℕ} (tb : Table q) (c₀ c : Config q)
    (n : ℤ) (hreach : ReachableFrom tb c₀ c) (hWF : WFTable tb)
    (hsum : csum c₀ = n) (hnn : ∀ s, 0 ≤ c₀ s) :
    csum c = n ∧ ∀ s, 0 ≤ c s := by
  obtain ⟨h1, h2⟩ := reachable_invariant hreach hWF hnn
  exact ⟨h1.trans hsum, h2⟩

theorem reachable_conservation_nonneg_witness :
    csum cAM = 100 ∧ ∀ s, 0 ≤ cAM s :=
  reachable_conservation_nonneg tbAM cAM cAM 100 Relation.ReflTransGen.refl
    (wf_of_forall tbAM (by decide)) (by decide) (by decide)

/-- Claim C2: `run` with no stop condition runs exactly until the
configuration is silent (zero total propensity) and then stops: a silent
configuration stops the loop immediately, and a regularly terminated
until-silent run ends in a silent configuration.  In particular, for the
one-state protocol with only the null transition and initial configuration
`X: 1000`, `run()` returns immediately with history of length 1 and
`t = 0`. -/
theorem run_until_silent_spec :
    (∀ (q : ℕ) (tb : Table q) (opts : SimOpts) (stop : StopCond q) (fuel : ℕ)
        (st : SimState q), silentB tb st.config = true →
        runAux tb opts stop (fuel + 1) st = { st with done := true }) ∧
    (∀ (q : ℕ) (tb : Table q) (opts : SimOpts) (fuel : ℕ) (st : SimState q),
        st.done = false → (runAux tb opts StopCond.untilSilent fuel st).done = true →
        silentB tb (runAux tb opts StopCond.untilSilent fuel st).config = true) ∧
    (∀ (opts : SimOpts) (fuel : ℕ),
        (runSim tbX opts StopCond.untilSilent (fuel + 1) cX).history.length = 1 ∧
        (runSim tbX opts StopCond.untilSilent (fuel + 1) cX).t = 0) := by
  refine ⟨fun q tb opts stop fuel st h => runAux_silent_stop tb opts stop fuel st h,
    fun q tb opts fuel st h1 h2 => runAux_done_silent tb opts fuel st h1 h2, ?_⟩
  intro opts fuel
  have hsil : silentB tbX cX = true := by decide
  unfold runSim
  rw [runAux_silent_stop tbX opts StopCond.untilSilent fuel (initState cX opts) hsil]
  exact ⟨rfl, rfl⟩

theorem run_until_silent_spec_witness :
    runAux tbX optsX StopCond.untilSilent 1 (initState cX optsX) =
      { initState cX optsX with done := true } :=
  run_until_silent_spec.1 1 tbX optsX StopCond.untilSilent 0 (initState cX optsX)
    (by decide)

/-- Claim C3: two runs with the same seed, rule, initial configuration, and
options record identical histories (the model's RNG is a deterministic
function of the seed and a draw counter, so the whole run is a function of
its inputs). -/
theorem run_deterministic {q : ℕ} (tb₁ tb₂ : Table q) (o₁ o₂ : SimOpts)
    (s₁ s₂ : StopCond q) (f₁ f₂ : ℕ) (c₁ c₂ : Config q)
    (htb : tb₁ = tb₂) (ho : o₁ = o₂) (hs : s₁ = s₂) (hf : f₁ = f₂) (hc : c₁ = c₂) :
    (runSim tb₁ o₁ s₁ f₁ c₁).history = (runSim tb₂ o₂ s₂ f₂ c₂).history := by
  subst htb
  subst ho
  subst hs
  subst hf
  subst hc
  rfl

theorem run_deterministic_witness :
    (runSim tbX optsX StopCond.untilSilent 1 cX).history =
      (runSim tbX optsX StopCond.untilSilent 1 cX).history :=
  run_deterministic tbX tbX optsX optsX StopCond.untilSilent StopCond.untilSilent
    1 1 cX cX rfl rfl rfl rfl rfl

/-- Claim C4: a Gillespie step computes each reaction's propensity by the
formula `a_r = c[i]·(c[j]−[i=j])·p_r / (n(n−1)/2)`; it reports silence
(`none`, standing for `Δt = +∞`) with the configuration unchanged exactly
when the total propensity `A` is zero; otherwise it applies exactly one
reaction — the one whose cumulative-propensity window contains `u·A`, so
reaction `r` is chosen with probability `a_r / A` for uniform `u` — and
reports the exponential rate `A·n` for the time advance. -/
theorem gillespie_step_spec {q : ℕ} (rs : List (Rxn q)) (c : Config q) (u : ℚ)
    (hc : ∀ s, 0 ≤ c s) (hp : ∀ r ∈ rs, 0 ≤ r.p) (hu0 : 0 ≤ u) (hu1 : u < 1) :
    (∀ r : Rxn q, propensity ((csum c : ℚ)) c r =
      (c r.i : ℚ) * ((c r.j : ℚ) - (if r.i = r.j then 1 else 0)) * r.p
        / (((csum c : ℚ)) * (((csum c : ℚ)) - 1) / 2)) ∧
    ((gStep rs ((csum c : ℚ)) c u).2 = none ↔ totalProp ((csum c : ℚ)) c rs = 0) ∧
    (totalProp ((csum c : ℚ)) c rs = 0 → (gStep rs ((csum c : ℚ)) c u).1 = c) ∧
    (totalProp ((csum c : ℚ)) c rs ≠ 0 →
      (gStep rs ((csum c : ℚ)) c u).2 =
        some (totalProp ((csum c : ℚ)) c rs * ((csum c : ℚ))) ∧
      ∃ k : ℕ, ∃ h : k < rs.length,
        selectIdx (rs.map (propensity ((csum c : ℚ)) c))
            (u * totalProp ((csum c : ℚ)) c rs) = k ∧
        (gStep rs ((csum c : ℚ)) c u).1 = applyRxn c (rs.get ⟨k, h⟩) ∧
        0 < propensity ((csum c : ℚ)) c (rs.get ⟨k, h⟩)) ∧
    (∀ k : ℕ, k < rs.length →
      ((rs.map (propensity ((csum c : ℚ)) c)).take k).sum ≤
          u * totalProp ((csum c : ℚ)) c rs →
      u * totalProp ((csum c : ℚ)) c rs <
          ((rs.map (propensity ((csum c : ℚ)) c)).take (k + 1)).sum →
      selectIdx (rs.map (propensity ((csum c : ℚ)) c))
        (u * totalProp ((csum c : ℚ)) c rs) = k) := by
  have hnn : ∀ w ∈ rs.map (propensity ((csum c : ℚ)) c), 0 ≤ w := by
    intro w hw
    rw [List.mem_map] at hw
    obtain ⟨r, hr, rfl⟩ := hw
    exact propensity_nonneg hc rfl (hp r hr)
  have hA0 : 0 ≤ totalProp ((csum c : ℚ)) c rs := List.sum_nonneg hnn
  refine ⟨fun r => rfl, gStep_none_iff rs _ c u, fun hA => gStep_silent_fst hA, ?_, ?_⟩
  · intro hA
    refine ⟨gStep_rate rs _ c u hA, ?_⟩
    have hApos : 0 < totalProp ((csum c : ℚ)) c rs := lt_of_le_of_ne hA0 (Ne.symm hA)
    have htpos : 0 ≤ u * totalProp ((csum c : ℚ)) c rs :=
      mul_nonneg hu0 (le_of_lt hApos)
    have htlt : u * totalProp ((csum c : ℚ)) c rs <
        (rs.map (propensity ((csum c : ℚ)) c)).sum := by
      have : totalProp ((csum c : ℚ)) c rs = (rs.map (propensity ((csum c : ℚ)) c)).sum := rfl
      nlinarith [hApos, hu1, this.symm.le]
    have hlen := selectIdx_lt_length _ _ hnn htpos htlt
    have hklt : selectIdx (rs.map (propensity ((csum c : ℚ)) c))
        (u * totalProp ((csum c : ℚ)) c rs) < rs.length := by
      rw [List.length_map] at hlen
      exact hlen
    refine ⟨_, hklt, rfl, ?_, ?_⟩
    · have hget : rs.get? (selectIdx (rs.map (propensity ((csum c : ℚ)) c))
          (u * totalProp ((csum c : ℚ)) c rs)) = some (rs.get ⟨_, hklt⟩) :=
        List.get?_eq_get hklt
      unfold gStep
      simp only [hA, if_neg hA, hget]
      simp
    · have hw := selectIdx_pos_weight _ _ hnn htpos hlen
      have hwe : (rs.map (propensity ((csum c : ℚ)) c)).get ⟨_, hlen⟩ =
          propensity ((csum c : ℚ)) c (rs.get ⟨_, hklt⟩) := by
        simp [List.get_eq_getElem, List.getElem_map]
      rw [hwe] at hw
      exact hw
  · intro k hk hlo hhi
    exact selectIdx_window _ _ k hnn
      (mul_nonneg hu0 hA0) hlo hhi

theorem gillespie_step_spec_witness :
    (gStep (reactionsOf tbAM) ((csum cAM : ℚ)) cAM (1 / 2)).2 = none ↔
      totalProp ((csum cAM : ℚ)) cAM (reactionsOf tbAM) = 0 :=
  (gillespie_step_spec (reactionsOf tbAM) cAM (1 / 2) (by decide) (by decide)
    (by norm_num) (by norm_num)).2.1

/-- Claim C5: for a rule given only as ordered pairs, building the table in
symmetric mode yields the same transition table as explicitly providing both
`(i,j)` and `(j,i)` (the missing `(j,i)` entry is the `(i,j)` entry with
outputs swapped), and hence the same simulation for every seed, options,
stop condition and initial configuration. -/
theorem symmetric_mode_equiv {q : ℕ} (entries : List (DetEntry q)) :
    (∀ i j, detTable true entries i j = detTable false (mirrorClosure entries) i j) ∧
    (∀ i j o, lookupRule entries i j = none → lookupRule entries j i = some o →
      detTable true entries i j = some [((o.2, o.1), 1)]) ∧
    (∀ (opts : SimOpts) (stop : StopCond q) (fuel : ℕ) (c₀ : Config q),
      runSim (detTable true entries) opts stop fuel c₀ =
        runSim (detTable false (mirrorClosure entries)) opts stop fuel c₀) := by
  refine ⟨fun i j => detTable_sym_eq entries i j, ?_, ?_⟩
  · intro i j o hnone hsome
    unfold detTable
    rw [hnone, hsome]
    simp
  · intro opts stop fuel c₀
    have heq : detTable true entries = detTable false (mirrorClosure entries) :=
      funext fun i => funext fun j => detTable_sym_eq entries i j
    rw [heq]

theorem symmetric_mode_equiv_witness :
    detTable true entriesAM 1 0 = some [(((2 : Fin 3), (2 : Fin 3)), 1)] :=
  (symmetric_mode_equiv entriesAM).2.1 1 0 (2, 2) (by decide) (by decide)

/-- Claim C6: building a table entry from a user distribution fails with
`InvalidRule` exactly when the probabilities of the merged,
zero-probability-dropped distribution do not sum to 1 within tolerance
`1e-12`, and succeeds (with the normalized distribution) when they do;
normalization preserves the probability sum and leaves no zero-probability
entries. -/
theorem build_validation_spec {q : ℕ} (g : Fin q → Fin q → Dist q) :
    ((∃ e, buildFromDists g = .error e) ↔
      ∃ i j, ¬ (|sumP (normalizeDist (g i j)) - 1| ≤ tol)) ∧
    (∀ i j, (|sumP (normalizeDist (g i j)) - 1| ≤ tol) →
      buildEntry i j (.distOut (g i j)) = .ok (normalizeDist (g i j))) ∧
    (∀ l : Dist q, sumP (normalizeDist l) = sumP l) ∧
    (∀ l : Dist q, ∀ e ∈ normalizeDist l, e.2 ≠ 0) := by
  refine ⟨?_, ?_, sumP_normalizeDist, normalizeDist_no_zero⟩
  · rw [← exOk_false_iff]
    have hiff := buildFromFun_ok_iff fun i j => RuleOutput.distOut (g i j)
    unfold buildFromDists
    constructor
    · intro hfalse
      by_contra hcon
      push_neg at hcon
      have hall : ∀ i j, exOk (buildEntry i j (.distOut (g i j))) = true := fun i j =>
        (buildEntry_dist_ok_iff i j (g i j)).mpr (hcon i j)
      rw [hiff.mpr hall] at hfalse
      exact absurd hfalse (by simp)
    · rintro ⟨i, j, hbad⟩
      rcases hok : exOk (buildFromFun fun i j => RuleOutput.distOut (g i j)) with _ | _
      · rfl
      · exact absurd ((buildEntry_dist_ok_iff i j (g i j)).mp (hiff.mp hok i j)) hbad
  · intro i j hsum
    unfold buildEntry
    simp only
    rw [if_pos hsum]

theorem build_validation_spec_witness :
    buildEntry (0 : Fin 1) (0 : Fin 1) (.distOut (g0 0 0)) =
      .ok (normalizeDist (g0 0 0)) :=
  (build_validation_spec g0).2.1 0 0
    (by norm_num [g0, normalizeDist, mergeDup, bump, sumP, tol])

/-- Claim C7 (counterexample): the repository's `two_choices_clock` example
rule produces a non-pair value (Python `None`) for the input pair `(2, 2)`,
yet building the table succeeds rather than failing with `InvalidRule`: the
code interprets `None` as the null transition. -/
theorem nonpair_rule_accepted_cex :
    twoChoicesClock 2 2 = RuleOutput.noneOut ∧
      exOk (buildFromFun twoChoicesClock) = true := by
  constructor
  · decide
  · decide

/-- Claim C7 (amended): a rule value that is neither a pair, a distribution,
nor `None` fails the build with `InvalidRule` and is not silently recovered,
while `None` is interpreted as the null transition `(i,j) ↦ (i,j)` (the
carried-over mutable-rule convenience the repository's examples rely on). -/
theorem rule_output_interpretation {q : ℕ} (f : Fin q → Fin q → RuleOutput q)
    (i j : Fin q) :
    buildEntry i j RuleOutput.noneOut = .ok [((i, j), 1)] ∧
    buildEntry i j RuleOutput.badOut = .error .invalidRule ∧
    ((∃ a b, f a b = RuleOutput.badOut) → ∀ tb, buildFromFun f ≠ .ok tb) := by
  refine ⟨rfl, rfl, ?_⟩
  rintro ⟨a, b, hab⟩ tb hok
  have : exOk (buildFromFun f) = true := by rw [hok]; rfl
  have hall := (buildFromFun_ok_iff f).mp this a b
  rw [hab] at hall
  exact absurd hall (by simp [buildEntry, exOk])

theorem rule_output_interpretation_witness :
    buildFromFun fBad ≠ .ok (fun _ _ => none) :=
  (rule_output_interpretation fBad 0 0).2.2 ⟨0, 0, rfl⟩ (fun _ _ => none)

/-- Claim C8: a MultiBatch block of `B` interactions advances the
parallel-time clock by exactly `B/n` (each interaction contributes `1/n`);
in particular a driver step that selects the MultiBatch engine advances `t`
by `B/n` for the batch size `B` chosen at the current population size. -/
theorem multibatch_time_advance :
    (∀ (q : ℕ) (tb : Table q) (seed : ℕ) (nQ : ℚ) (B : ℕ) (s : Config q × ℚ × ℕ),
      (mbRun tb seed nQ B s).2.1 = s.2.1 + B / nQ) ∧
    (∀ (q : ℕ) (tb : Table q) (opts : SimOpts) (st : SimState q),
      useGillespieB tb opts st.config = false →
      (driverStep tb opts st).t =
        st.t + (batchSize (csum st.config).toNat : ℚ) / ((csum st.config : ℚ))) := by
  refine ⟨fun q tb seed nQ B s => mbRun_time tb seed nQ B s, ?_⟩
  intro q tb opts st huse
  unfold driverStep
  simp only
  rw [if_neg (by rw [huse]; simp : ¬ useGillespieB tb opts st.config = true)]
  rw [(recordMaybe_fields opts _).2.1]
  exact mbRun_time tb opts.seed ((csum st.config : ℚ))
    (batchSize (csum st.config).toNat) (st.config, st.t, st.ctr)

theorem multibatch_time_advance_witness :
    (driverStep tbX optsX (initState cX optsX)).t =
      (initState cX optsX).t +
        (batchSize (csum (initState cX optsX).config).toNat : ℚ) /
          ((csum (initState cX optsX).config : ℚ)) :=
  multibatch_time_advance.2 1 tbX optsX (initState cX optsX) (by decide)

/-- Claim C9: across every run, the recorded trajectory of `t` is monotone
non-decreasing (consecutive snapshot times satisfy `t_k ≤ t_{k+1}`),
snapshots are appended in order of `t`, and no snapshot is modified after
being appended: the prior history is a prefix of the resulting history. -/
theorem history_monotone_append_only {q : ℕ} (tb : Table q) (opts : SimOpts)
    (stop : StopCond q) (fuel : ℕ) (st : SimState q) (hWF : WFTable tb)
    (hc : ∀ s, 0 ≤ st.config s) (hhist : ∀ x ∈ st.history, x.1 ≤ st.t)
    (hsort : List.Pairwise (· ≤ ·) (st.history.map Prod.fst)) :
    List.Chain' (· ≤ ·) ((runAux tb opts stop fuel st).history.map Prod.fst) ∧
    (∃ tail, (runAux tb opts stop fuel st).history = st.history ++ tail) ∧
    st.t ≤ (runAux tb opts stop fuel st).t := by
  obtain ⟨_, h2, _, h4, h5⟩ := runAux_props tb opts stop fuel st hWF hc hhist hsort
  exact ⟨h4.chain', h5, h2⟩

theorem history_monotone_append_only_witness :
    List.Chain' (· ≤ ·)
        ((runAux tbX optsX StopCond.untilSilent 2 (initState cX optsX)).history.map
          Prod.fst) ∧
      (∃ tail, (runAux tbX optsX StopCond.untilSilent 2 (initState cX optsX)).history =
        (initState cX optsX).history ++ tail) ∧
      (initState cX optsX).t ≤
        (runAux tbX optsX StopCond.untilSilent 2 (initState cX optsX)).t :=
  history_monotone_append_only tbX optsX StopCond.untilSilent 2 (initState cX optsX)
    (wf_of_forall tbX (by decide)) (by decide) (by decide) (by decide)

/-- Claim C10: `config_dict` contains exactly the states with non-zero
current count (mapped to those counts); `config_array` has length `q` with
one entry per state in state-list order, zeros included; and the stop
predicate passed to `run` is evaluated on the non-zero-only dictionary view:
a run regularly stopped by a predicate (and not by silence) has the
predicate hold on the dictionary view of its final configuration. -/
theorem config_views_spec {q : ℕ} (c : Config q) :
    (∀ (s : Fin q) (m : ℤ), (s, m) ∈ configDict c ↔ c s = m ∧ m ≠ 0) ∧
    ((configArray c).length = q ∧
      ∀ s : Fin q, (configArray c).getD (s : ℕ) 0 = c s) ∧
    (∀ (tb : Table q) (opts : SimOpts) (fuel : ℕ)
        (f : List (Fin q × ℤ) → Bool) (st : SimState q), st.done = false →
      (runAux tb opts (StopCond.predCond f) fuel st).done = true →
      silentB tb (runAux tb opts (StopCond.predCond f) fuel st).config = false →
      f (configDict (runAux tb opts (StopCond.predCond f) fuel st).config) = true) := by
  refine ⟨?_, ⟨List.length_ofFn c, ?_⟩,
    fun tb opts fuel f st h1 h2 h3 => runAux_done_pred tb opts fuel f st h1 h2 h3⟩
  · intro s m
    unfold configDict
    rw [List.mem_filterMap]
    constructor
    · rintro ⟨a, _, ha⟩
      by_cases h : c a = 0
      · rw [if_pos h] at ha
        exact absurd ha (by simp)
      · rw [if_neg h] at ha
        have hpair := Option.some.inj ha
        have h1 : a = s := congrArg Prod.fst hpair
        have h2 : c a = m := congrArg Prod.snd hpair
        subst h1
        exact ⟨h2, h2 ▸ h⟩
    · rintro ⟨hcm, hm⟩
      refine ⟨s, List.mem_finRange s, ?_⟩
      rw [if_neg (by rw [hcm]; exact hm), hcm]
  · intro s
    unfold configArray
    rw [List.getD_eq_getElem?_getD, List.getElem?_ofFn]
    simp [List.ofFnNthVal, s.isLt]

theorem config_views_spec_witness :
    f0 (configDict (runAux tbAM optsX (StopCond.predCond f0) 1 (initState cAM optsX)).config) = true := by
  have hrun : runAux tbAM optsX (StopCond.predCond f0) 1 (initState cAM optsX) =
      { initState cAM optsX with done := true } := by
    unfold runAux
    rw [show silentB tbAM (initState cAM optsX).config = false from silentB_AM_false,
      show stopMet (StopCond.predCond f0) (initState cAM optsX) = true from rfl]
    simp
  exact (config_views_spec cAM).2.2 tbAM optsX 1 f0 (initState cAM optsX) rfl
    (by rw [hrun]) (by rw [hrun]; exact silentB_AM_false)

end PPSim
